import Mathlib

/-!
Shallow embedding of the fair non-transitive dice game (src/index.js):
the rejection sampler Crypto.randomNumber, the commit/collect/reveal round
FairRandom.generate with its input loop FairRandom.getUserInput, and the
win-probability engine ProbabilityCalculator.calculate.
-/

/-- A die: the source class Dice stores the array of face values;
DiceParser.parse guarantees exactly 6 integer faces, so a die is a
function from the 6 face indices to integers. -/
structure Dice where
  faces : Fin 6 → Int

/-- Dice.roll returns the face value at the given index (src/index.js line 11). -/
def Dice.roll (d : Dice) (i : Fin 6) : Int := d.faces i

/-- The acceptance limit of Crypto.randomNumber, line 63:
Math.floor(256 / range) * range.  The JS quotient 256 / range is an exact
rational and Math.floor rounds it toward minus infinity, which is Int.fdiv. -/
def rnLimit (range : Int) : Int := Int.fdiv 256 range * range

/-- Result of Crypto.randomNumber: the returned value together with the number
of bytes drawn from the entropy source.  nan records the outcome of the JS
arithmetic when range = 0 (the limit is NaN, the comparison value >= NaN is
false, and min + value % 0 is NaN); timeout records exhaustion of the loop
fuel (the do-while loop in the source is unbounded). -/
inductive RNResult where
  | val (n : Int) (drawn : Nat)
  | nan (drawn : Nat)
  | timeout
  deriving DecidableEq, Repr

/-- The do-while rejection loop of Crypto.randomNumber, lines 65-67: draw the
i-th byte of the stream; if it is >= the limit, redraw, else accept.  Fuel
bounds the number of iterations.  Returns the accepted byte together with how
many bytes were drawn in total. -/
def rnLoop (lim : Int) (stream : Nat → Nat) : Nat → Nat → Option (Nat × Nat)
  | 0, _ => none
  | fuel + 1, i =>
    let value := stream i
    if lim ≤ (value : Int) then rnLoop lim stream fuel (i + 1)
    else some (value, i + 1)

/-- Crypto.randomNumber(min, max), src/index.js lines 61-69.  The entropy
source crypto.randomBytes(1)[0] is modeled as an explicit byte stream (each
entry intended in 0..255) and the unbounded do-while loop is bounded by fuel.
JS Number arithmetic on these integer values is exact; the JS remainder
operator on integers is Int.tmod (sign of the dividend); the degenerate
range = 0 case produces NaN as explained at RNResult. -/
def Crypto.randomNumber (min max : Int) (stream : Nat → Nat) (fuel : Nat) : RNResult :=
  let range := max - min + 1
  if range = 0 then RNResult.nan 1
  else
    match rnLoop (rnLimit range) stream fuel 0 with
    | none => RNResult.timeout
    | some (value, drawn) => RNResult.val (min + Int.tmod (value : Int) range) drawn

/-- Console output events of one FairRandom round, as seen by the report sink.
announce is line 85 (the range and the HMAC digest); menu is the selection
prompt of getUserInput, lines 105-110; invalidMsg is line 137; helpShown
stands for the probability table printed by Game.showHelp on the help
command; reveal is line 92 (the key and the computer value); result is
line 93.  The digest and the key are abstracted as integers. -/
inductive REvent where
  | announce (min max digest : Int)
  | menu (min max : Int)
  | invalidMsg
  | helpShown
  | reveal (key computerValue : Int)
  | result (computerValue counterpartValue res : Int)
  deriving DecidableEq, Repr

/-- One console response, decoded: the source checks for the exit command x
(line 116), the help command ? (line 121), then parses an integer (line 131);
any response whose parseInt is NaN is invalid. -/
inductive Response where
  | num (n : Int)
  | abortCmd
  | helpCmd
  | invalid
  deriving DecidableEq, Repr

/-- Outcome of FairRandom.getUserInput: a validated number (line 134), process
exit on the x command (line 118), or pending when the response list is
exhausted and the source blocks on rl.question. -/
inductive Outcome where
  | value (n : Int)
  | aborted
  | pending
  deriving DecidableEq, Repr

/-- FairRandom.getUserInput (src/index.js lines 98-139): print the menu and
read a response; x exits the process, ? shows the help table and re-prompts,
an integer inside [min, max] is returned, anything else prints the invalid
message and re-prompts.  Returns the emitted events and the outcome. -/
def FairRandom.getUserInput (min max : Int) : List Response → List REvent × Outcome
  | [] => ([REvent.menu min max], Outcome.pending)
  | Response.abortCmd :: _ => ([REvent.menu min max], Outcome.aborted)
  | Response.helpCmd :: rest =>
      let next := FairRandom.getUserInput min max rest
      (REvent.menu min max :: REvent.helpShown :: next.1, next.2)
  | Response.num n :: rest =>
      if min ≤ n ∧ n ≤ max then ([REvent.menu min max], Outcome.value n)
      else
        let next := FairRandom.getUserInput min max rest
        (REvent.menu min max :: REvent.invalidMsg :: next.1, next.2)
  | Response.invalid :: rest =>
      let next := FairRandom.getUserInput min max rest
      (REvent.menu min max :: REvent.invalidMsg :: next.1, next.2)

/-- The Combine step of FairRandom.generate, line 91:
(computerNum + userNum) % (max - min + 1), the JS remainder being Int.tmod. -/
def combineResult (computerNum userNum min max : Int) : Int :=
  Int.tmod (computerNum + userNum) (max - min + 1)

/-- FairRandom.generate, src/index.js lines 78-96.  The fresh key from
Crypto.generateKey and the sampled computerNum from Crypto.randomNumber come
from the external entropy source and are passed as arguments; hmacFn is the
external keyed-hash collaborator (Crypto.hmac).  The round announces the
range and the digest, runs getUserInput; on the exit command the process
terminates with no further output; when a number is obtained the key and the
computer value are revealed and the combined result is printed and returned. -/
def FairRandom.generate (hmacFn : Int → Int → Int) (key computerNum : Int)
    (min max : Int) (responses : List Response) : List REvent × Option Int :=
  let collect := FairRandom.getUserInput min max responses
  match collect.2 with
  | Outcome.value userNum =>
      let res := combineResult computerNum userNum min max
      (REvent.announce min max (hmacFn key computerNum) :: collect.1 ++
        [REvent.reveal key computerNum,
         REvent.result computerNum userNum res], some res)
  | _ => (REvent.announce min max (hmacFn key computerNum) :: collect.1, none)

/-- ProbabilityCalculator.calculate, src/index.js lines 144-154: a nested loop
over the 36 ordered face index pairs counts the pairs where dice1's face
beats dice2's face, and the count is divided by 36.  The JS division is an
exact rational here, modeled in ℚ. -/
def ProbabilityCalculator.calculate (dice1 dice2 : Dice) : ℚ :=
  let wins : Nat := (List.finRange 6).foldl (fun wins i =>
    (List.finRange 6).foldl (fun wins j =>
      if dice1.roll i > dice2.roll j then wins + 1 else wins) wins) 0
  (wins : ℚ) / 36

/-- The number of ordered face pairs (a from dice1, b from dice2) with a > b,
as stated by the spec of pairwiseWinProbability. -/
def winPairCount (dice1 dice2 : Dice) : Nat :=
  ((Finset.univ : Finset (Fin 6 × Fin 6)).filter
    (fun p => dice1.roll p.1 > dice2.roll p.2)).card

/-- The number of ordered face pairs with equal faces. -/
def tiePairCount (dice1 dice2 : Dice) : Nat :=
  ((Finset.univ : Finset (Fin 6 × Fin 6)).filter
    (fun p => dice1.roll p.1 = dice2.roll p.2)).card

/-- The tie fraction from the spec: equal-face pairs over 36. -/
def tieFraction (dice1 dice2 : Dice) : ℚ := (tiePairCount dice1 dice2 : ℚ) / 36

/-- The first example die from the spec and README: 2,2,4,4,9,9. -/
def diceA : Dice := ⟨![2, 2, 4, 4, 9, 9]⟩

/-- The second example die: 1,1,6,6,8,8. -/
def diceB : Dice := ⟨![1, 1, 6, 6, 8, 8]⟩

/-- The third example die: 3,3,5,5,7,7. -/
def diceC : Dice := ⟨![3, 3, 5, 5, 7, 7]⟩

theorem foldl_count {α : Type} (p : α → Prop) [DecidablePred p] :
    ∀ (l : List α) (n : Nat),
      l.foldl (fun a x => if p x then a + 1 else a) n
        = n + l.countP (fun x => decide (p x))
  | [], n => by simp
  | x :: l, n => by
    by_cases h : p x <;>
      simp [List.countP_cons, h, foldl_count p l] <;> omega

theorem countP_eq_sum_map {α : Type} (p : α → Bool) :
    ∀ l : List α, l.countP p = (l.map (fun x => if p x then 1 else 0)).sum
  | [] => by simp
  | x :: l => by
    by_cases h : p x <;> simp [List.countP_cons, h, countP_eq_sum_map p l] <;> omega

theorem countP_finRange (n : Nat) (p : Fin n → Prop) [DecidablePred p] :
    (List.finRange n).countP (fun j => decide (p j))
      = ∑ j : Fin n, if p j then 1 else 0 := by
  rw [countP_eq_sum_map, Fin.sum_univ_def]
  simp only [decide_eq_true_eq]

theorem foldl_add_count {α : Type} (c : α → Nat) :
    ∀ (l : List α) (n : Nat), l.foldl (fun a x => a + c x) n = n + (l.map c).sum
  | [], n => by simp
  | x :: l, n => by simp [foldl_add_count c l]; omega

theorem calculate_wins_eq (d1 d2 : Dice) :
    ((List.finRange 6).foldl (fun wins i =>
      (List.finRange 6).foldl (fun wins j =>
        if d1.roll i > d2.roll j then wins + 1 else wins) wins) 0)
      = ∑ i : Fin 6, ∑ j : Fin 6, if d1.roll i > d2.roll j then 1 else 0 := by
  have hinner : (fun (wins : Nat) (i : Fin 6) =>
      (List.finRange 6).foldl (fun wins j =>
        if d1.roll i > d2.roll j then wins + 1 else wins) wins)
      = fun (wins : Nat) (i : Fin 6) =>
        wins + (List.finRange 6).countP (fun j => decide (d1.roll i > d2.roll j)) := by
    funext wins i
    exact foldl_count (fun j => d1.roll i > d2.roll j) (List.finRange 6) wins
  rw [hinner, foldl_add_count, Fin.sum_univ_def]
  simp only [Nat.zero_add, countP_finRange]

theorem winPairCount_eq_sum (d1 d2 : Dice) :
    winPairCount d1 d2
      = ∑ i : Fin 6, ∑ j : Fin 6, if d1.roll i > d2.roll j then 1 else 0 := by
  rw [winPairCount, Finset.card_filter, Fintype.sum_prod_type]

theorem tiePairCount_eq_sum (d1 d2 : Dice) :
    tiePairCount d1 d2
      = ∑ i : Fin 6, ∑ j : Fin 6, if d1.roll i = d2.roll j then 1 else 0 := by
  rw [tiePairCount, Finset.card_filter, Fintype.sum_prod_type]

theorem calculate_eq_div (d1 d2 : Dice) :
    ProbabilityCalculator.calculate d1 d2 = (winPairCount d1 d2 : ℚ) / 36 := by
  rw [ProbabilityCalculator.calculate, calculate_wins_eq, winPairCount_eq_sum]

theorem winPairCount_le (d1 d2 : Dice) : winPairCount d1 d2 ≤ 36 := by
  have h := Finset.card_filter_le (Finset.univ : Finset (Fin 6 × Fin 6))
    (fun p => d1.roll p.1 > d2.roll p.2)
  simpa using h

theorem count_trichotomy (d1 d2 : Dice) :
    winPairCount d1 d2 + winPairCount d2 d1 + tiePairCount d1 d2 = 36 := by
  rw [winPairCount_eq_sum d1 d2, winPairCount_eq_sum d2 d1, tiePairCount_eq_sum d1 d2]
  rw [Finset.sum_comm (s := (Finset.univ : Finset (Fin 6)))
    (t := (Finset.univ : Finset (Fin 6)))
    (f := fun i j => if d2.roll i > d1.roll j then 1 else 0)]
  have hpt : ∀ i j : Fin 6,
      ((if d1.roll i > d2.roll j then 1 else 0)
        + (if d2.roll j > d1.roll i then 1 else 0))
        + (if d1.roll i = d2.roll j then 1 else 0) = 1 := by
    intro i j
    rcases lt_trichotomy (d1.roll i) (d2.roll j) with h | h | h
    · simp [h, not_lt_of_gt h, h.ne, lt_irrefl]
    · simp [h, lt_irrefl]
    · simp [h, not_lt_of_gt h, (h.ne).symm, lt_irrefl]
  have hrow : ∀ i : Fin 6,
      ((∑ j : Fin 6, if d1.roll i > d2.roll j then 1 else 0)
        + (∑ j : Fin 6, if d2.roll j > d1.roll i then 1 else 0))
        + (∑ j : Fin 6, if d1.roll i = d2.roll j then 1 else 0) = 6 := by
    intro i
    rw [← Finset.sum_add_distrib, ← Finset.sum_add_distrib]
    have : ∀ j ∈ (Finset.univ : Finset (Fin 6)),
        ((if d1.roll i > d2.roll j then 1 else 0)
          + (if d2.roll j > d1.roll i then 1 else 0))
          + (if d1.roll i = d2.roll j then 1 else 0) = 1 := fun j _ => hpt i j
    rw [Finset.sum_congr rfl this]
    simp
  rw [← Finset.sum_add_distrib, ← Finset.sum_add_distrib]
  rw [Finset.sum_congr rfl (fun i _ => hrow i)]
  simp

/-- C6: for every pair of dice, ProbabilityCalculator.calculate equals the
count of ordered face pairs (a, b) with a from dice1, b from dice2 and a > b,
divided by 36, and this value is a rational in [0, 1].  The function is a
pure Lean function of its two arguments, hence deterministic and free of
randomness. -/
theorem calculate_winProbability (d1 d2 : Dice) :
    ProbabilityCalculator.calculate d1 d2 = (winPairCount d1 d2 : ℚ) / 36
      ∧ 0 ≤ ProbabilityCalculator.calculate d1 d2
      ∧ ProbabilityCalculator.calculate d1 d2 ≤ 1 := by
  refine ⟨calculate_eq_div d1 d2, ?_, ?_⟩
  · rw [calculate_eq_div]
    positivity
  · rw [calculate_eq_div]
    rw [div_le_one (by norm_num)]
    have h := winPairCount_le d1 d2
    exact_mod_cast Nat.cast_le.mpr h

/-- C8: for every pair of dice, the win probabilities in the two orders plus
the tie fraction add to exactly 1. -/
theorem calculate_add_tieFraction (d1 d2 : Dice) :
    ProbabilityCalculator.calculate d1 d2 + ProbabilityCalculator.calculate d2 d1
      + tieFraction d1 d2 = 1 := by
  rw [calculate_eq_div, calculate_eq_div, tieFraction]
  have h := count_trichotomy d1 d2
  have hq : (winPairCount d1 d2 : ℚ) + (winPairCount d2 d1 : ℚ)
      + (tiePairCount d1 d2 : ℚ) = 36 := by exact_mod_cast congrArg (Nat.cast : Nat → ℚ) h
  field_simp
  linarith

/-- C7: for the concrete dice A = 2,2,4,4,9,9, B = 1,1,6,6,8,8,
C = 3,3,5,5,7,7, the win probability of A over B is 20/36, and A beats B,
B beats C and C beats A each with probability above one half: the engine
represents the non-transitive cycle. -/
theorem nontransitive_dice :
    ProbabilityCalculator.calculate diceA diceB = 20 / 36
      ∧ 1 / 2 < ProbabilityCalculator.calculate diceA diceB
      ∧ 1 / 2 < ProbabilityCalculator.calculate diceB diceC
      ∧ 1 / 2 < ProbabilityCalculator.calculate diceC diceA := by
  have hAB : winPairCount diceA diceB = 20 := by decide
  have hBC : winPairCount diceB diceC = 20 := by decide
  have hCA : winPairCount diceC diceA = 20 := by decide
  refine ⟨?_, ?_, ?_, ?_⟩ <;>
    rw [calculate_eq_div] <;>
    simp only [hAB, hBC, hCA] <;>
    norm_num

/-- C3 counterexample: on the degenerate range min = max = 0 the sampler does
return min, but it draws one byte from the entropy source (the drawn-bytes
count is 1, not 0): there is no entropy-free short-circuit in the code. -/
theorem randomNumber_range_one_draws :
    Crypto.randomNumber 0 0 (fun _ => 0) 1 = RNResult.val 0 1 ∧ (1 : Nat) ≠ 0 := by
  constructor
  · decide
  · decide

/-- C3 amended: for every min, when max = min (range 1) the sampler returns
min, but only after drawing exactly one byte: the acceptance limit is 256, so
the first byte is always accepted; there is no short-circuit avoiding the
entropy draw. -/
theorem randomNumber_range_one (min : Int) (stream : Nat → Nat) (fuel : Nat)
    (hstream : ∀ i, stream i < 256) (hfuel : 0 < fuel) :
    Crypto.randomNumber min min stream fuel = RNResult.val min 1 := by
  obtain ⟨f, rfl⟩ : ∃ f, fuel = f + 1 := ⟨fuel - 1, by omega⟩
  have hrange : min - min + 1 = (1 : Int) := by ring
  rw [Crypto.randomNumber]
  simp only [hrange]
  have hlim : rnLimit 1 = 256 := by decide
  rw [if_neg (by norm_num), hlim, rnLoop]
  have hacc : ¬ ((256 : Int) ≤ ((stream 0 : Nat) : Int)) := by
    have := hstream 0
    omega
  rw [if_neg hacc]
  simp [Int.tmod_one]

/-- C3 amended witness at min = 5, a constant byte stream and fuel 3. -/
theorem randomNumber_range_one_witness :
    Crypto.randomNumber 5 5 (fun _ => 17) 3 = RNResult.val 5 1 :=
  randomNumber_range_one 5 (fun _ => 17) 3 (fun i => by norm_num) (by decide)

theorem rnLimit_of_neg {r : Int} (hr : r < 0) : 256 ≤ rnLimit r := by
  obtain ⟨n, rfl⟩ := Int.eq_negSucc_of_lt_zero hr
  show 256 ≤ Int.fdiv 256 (Int.negSucc n) * Int.negSucc n
  have hfd : Int.fdiv 256 (Int.negSucc n) = Int.negSucc (255 / (n + 1)) := rfl
  rw [hfd, Int.negSucc_mul_negSucc]
  have hq := Nat.div_add_mod 255 (n + 1)
  have hm : 255 % (n + 1) < n + 1 := Nat.mod_lt _ (Nat.succ_pos n)
  have hnat : 255 < (255 / (n + 1) + 1) * (n + 1) := by
    calc 255 = (n + 1) * (255 / (n + 1)) + 255 % (n + 1) := hq.symm
      _ < (n + 1) * (255 / (n + 1)) + (n + 1) := Nat.add_lt_add_left hm _
      _ = (255 / (n + 1) + 1) * (n + 1) := by ring
  exact_mod_cast hnat

/-- C4 counterexample: calling the sampler with max < min (here min = 2,
max = 0, range = -1) does not fail with an InvalidRange error: the code has
no range validation, the first byte is accepted (the limit evaluates to 256)
and the value min + (byte % range) = 2 is returned. -/
theorem randomNumber_invalid_range_returns :
    Crypto.randomNumber 2 0 (fun _ => 0) 1 = RNResult.val 2 1 := by decide

/-- C4 amended: for max < min the sampler does not fail with InvalidRange
(there is no validation in the code).  When range = max - min + 1 is
negative, the limit is at least 256, so the first byte is accepted and
min + (byte % range) is returned; when range = 0 (max = min - 1), the JS
arithmetic produces NaN.  In neither case is an error raised. -/
theorem randomNumber_invalid_range (min max : Int) (stream : Nat → Nat) (fuel : Nat)
    (h : max < min) (hstream : ∀ i, stream i < 256) (hfuel : 0 < fuel) :
    (max - min + 1 = 0 → Crypto.randomNumber min max stream fuel = RNResult.nan 1)
      ∧ (max - min + 1 < 0 →
          Crypto.randomNumber min max stream fuel
            = RNResult.val (min + Int.tmod ((stream 0 : Nat) : Int) (max - min + 1)) 1) := by
  constructor
  · intro h0
    simp only [Crypto.randomNumber]
    rw [if_pos h0]
  · intro hneg
    obtain ⟨f, rfl⟩ : ∃ f, fuel = f + 1 := ⟨fuel - 1, by omega⟩
    have hlim : 256 ≤ rnLimit (max - min + 1) := rnLimit_of_neg hneg
    rw [Crypto.randomNumber]
    rw [if_neg (by omega), rnLoop]
    have hacc : ¬ (rnLimit (max - min + 1) ≤ ((stream 0 : Nat) : Int)) := by
      have := hstream 0
      omega
    rw [if_neg hacc]

/-- C4 amended witness: sample(2, 0) with a constant byte stream returns the
value 2 after one draw, raising no error. -/
theorem randomNumber_invalid_range_witness :
    Crypto.randomNumber 2 0 (fun _ => 5) 1 = RNResult.val 2 1 := by
  have h := (randomNumber_invalid_range 2 0 (fun _ => 5) 1 (by decide)
    (fun i => by norm_num) (by decide)).2 (by decide)
  exact h.trans (by decide)

theorem rnLoop_limit_zero (stream : Nat → Nat) :
    ∀ (fuel i : Nat), rnLoop 0 stream fuel i = none
  | 0, _ => rfl
  | fuel + 1, i => by
    rw [rnLoop]
    rw [if_pos (by positivity)]
    exact rnLoop_limit_zero stream fuel (i + 1)

/-- C10: when the requested range exceeds 256, the acceptance limit
floor(256 / range) * range is 0, every drawn byte is rejected and the
rejection loop never terminates, whatever the stream and however much fuel
the loop is given: the sampler only terminates under 1 <= range <= 256. -/
theorem randomNumber_diverges (min max : Int) (h : 256 < max - min + 1) :
    rnLimit (max - min + 1) = 0
      ∧ ∀ (stream : Nat → Nat) (fuel : Nat),
          Crypto.randomNumber min max stream fuel = RNResult.timeout := by
  have hlim : rnLimit (max - min + 1) = 0 := by
    rw [rnLimit]
    have hcast : ((max - min + 1).toNat : Int) = max - min + 1 :=
      Int.toNat_of_nonneg (by omega)
    have hfd : Int.fdiv 256 (max - min + 1) = 0 := by
      have h256 : ((256 : Nat) : Int) = (256 : Int) := by norm_cast
      rw [← hcast, ← h256, ← Int.ofNat_fdiv 256 (max - min + 1).toNat]
      have hz : 256 / (max - min + 1).toNat = 0 :=
        Nat.div_eq_of_lt (by omega)
      rw [hz]
      rfl
    rw [hfd, Int.zero_mul]
  refine ⟨hlim, fun stream fuel => ?_⟩
  rw [Crypto.randomNumber]
  rw [if_neg (by omega), hlim, rnLoop_limit_zero]

/-- C10 witness: range 257 with a zero stream and fuel 2 times out. -/
theorem randomNumber_diverges_witness :
    Crypto.randomNumber 0 256 (fun _ => 0) 2 = RNResult.timeout :=
  (randomNumber_diverges 0 256 (by decide)).2 (fun _ => 0) 2

theorem card_mod_block (R Q k : Nat) (hR : 0 < R) (hk : k < R) :
    ((Finset.range (Q * R)).filter (fun b => b % R = k)).card = Q := by
  have hbij : ((Finset.range (Q * R)).filter (fun b => b % R = k)).card
      = (Finset.range Q).card := by
    apply Finset.card_bij' (fun b _ => b / R) (fun a _ => a * R + k)
    · intro b hb
      rw [Finset.mem_filter, Finset.mem_range] at hb
      rw [Finset.mem_range]
      exact (Nat.div_lt_iff_lt_mul hR).mpr hb.1
    · intro a ha
      rw [Finset.mem_range] at ha
      rw [Finset.mem_filter, Finset.mem_range]
      constructor
      · calc a * R + k < a * R + R := by omega
          _ = (a + 1) * R := by ring
          _ ≤ Q * R := Nat.mul_le_mul_right R ha
      · rw [mul_comm, Nat.mul_add_mod]
        exact Nat.mod_eq_of_lt hk
    · intro b hb
      rw [Finset.mem_filter, Finset.mem_range] at hb
      calc b / R * R + k = R * (b / R) + b % R := by rw [mul_comm, hb.2]
        _ = b := Nat.div_add_mod b R
    · intro a _
      rw [mul_comm a R, Nat.mul_add_div hR, Nat.div_eq_of_lt hk]
      omega
  rw [hbij, Finset.card_range]

theorem rnLimit_natCast (R : Nat) : rnLimit ((R : Nat) : Int) = ((256 / R * R : Nat) : Int) := by
  rw [rnLimit]
  have h256 : ((256 : Nat) : Int) = (256 : Int) := by norm_cast
  rw [← h256, ← Int.ofNat_fdiv 256 R]
  push_cast
  ring

/-- C1: for min <= max with range = max - min + 1 at most 256, the sampler
returns only values in [min, max], and the accepted raw bytes are split
exactly evenly: every target value r in [min, max] has exactly
floor(256 / range) byte values below the acceptance limit that map to it
under min + (byte % range), so the distribution over accepted bytes is
exactly uniform. -/
theorem randomNumber_uniform (min max : Int) (hle : min ≤ max)
    (hsize : max - min + 1 ≤ 256) :
    (∀ (stream : Nat → Nat) (fuel : Nat) (n : Int) (d : Nat),
        Crypto.randomNumber min max stream fuel = RNResult.val n d → min ≤ n ∧ n ≤ max)
      ∧ (∀ r : Int, min ≤ r → r ≤ max →
          ((Finset.range 256).filter (fun b =>
              ((b : Nat) : Int) < rnLimit (max - min + 1)
                ∧ min + Int.tmod ((b : Nat) : Int) (max - min + 1) = r)).card
            = 256 / (max - min + 1).toNat) := by
  set R : Nat := (max - min + 1).toNat with hRdef
  have hcast : ((R : Nat) : Int) = max - min + 1 := Int.toNat_of_nonneg (by omega)
  have hRpos : 0 < R := by omega
  constructor
  · intro stream fuel n d hrun
    rw [Crypto.randomNumber] at hrun
    rw [if_neg (by omega)] at hrun
    cases hloop : rnLoop (rnLimit (max - min + 1)) stream fuel 0 with
    | none => rw [hloop] at hrun; exact absurd hrun (by simp)
    | some vd =>
      obtain ⟨v, d0⟩ := vd
      rw [hloop] at hrun
      have hn : n = min + Int.tmod ((v : Nat) : Int) (max - min + 1) := by
        cases hrun
        rfl
      rw [← hcast, ← Int.ofNat_tmod] at hn
      have hmod : v % R < R := Nat.mod_lt v hRpos
      have hmodc : (((v % R : Nat)) : Int) < ((R : Nat) : Int) := by exact_mod_cast hmod
      have hnn : (0 : Int) ≤ ((v % R : Nat) : Int) := Int.ofNat_nonneg _
      omega
  · intro r hr1 hr2
    have hk : (((r - min).toNat : Nat) : Int) = r - min := Int.toNat_of_nonneg (by omega)
    set k : Nat := (r - min).toNat with hkdef
    have hkR : k < R := by omega
    have hset : (Finset.range 256).filter (fun b =>
        ((b : Nat) : Int) < rnLimit (max - min + 1)
          ∧ min + Int.tmod ((b : Nat) : Int) (max - min + 1) = r)
        = (Finset.range (256 / R * R)).filter (fun b => b % R = k) := by
      ext b
      simp only [Finset.mem_filter, Finset.mem_range]
      constructor
      · rintro ⟨hb256, hlt, heq⟩
        rw [← hcast, rnLimit_natCast] at hlt
        have hblt : b < 256 / R * R := by exact_mod_cast hlt
        refine ⟨hblt, ?_⟩
        rw [← hcast, ← Int.ofNat_tmod] at heq
        have hcc : ((b % R : Nat) : Int) = ((k : Nat) : Int) := by omega
        exact_mod_cast hcc
      · rintro ⟨hblt, hmod⟩
        have hb256 : b < 256 := lt_of_lt_of_le hblt (Nat.div_mul_le_self 256 R)
        refine ⟨hb256, ?_, ?_⟩
        · rw [← hcast, rnLimit_natCast]
          exact_mod_cast hblt
        · rw [← hcast, ← Int.ofNat_tmod, hmod]
          omega
    rw [hset, card_mod_block R (256 / R) k hRpos hkR]

/-- C1 witness at min = 0, max = 1: each of the two values is hit by exactly
128 of the 256 accepted byte values. -/
theorem randomNumber_uniform_witness :
    ((Finset.range 256).filter (fun b =>
        ((b : Nat) : Int) < rnLimit (1 - 0 + 1)
          ∧ (0 : Int) + Int.tmod ((b : Nat) : Int) (1 - 0 + 1) = 0)).card
      = 256 / ((1 : Int) - 0 + 1).toNat :=
  (randomNumber_uniform 0 1 (by decide) (by decide)).2 0 (by decide) (by decide)

/-- C5: with both contributions in [min, max] and a nonnegative min (as in
every round of the game, where min is 0), the Combine step
(computerValue + counterpartValue) % (max - min + 1) lies in [0, range - 1];
Combine is commutative in its two inputs for all arguments; and the concrete
instance min = 0, max = 5, computerValue = 4, counterpartValue = 3 gives
7 mod 6 = 1. -/
theorem combineResult_spec (min max a b : Int) (hmin : 0 ≤ min)
    (ha1 : min ≤ a) (ha2 : a ≤ max) (hb1 : min ≤ b) (hb2 : b ≤ max) :
    (0 ≤ combineResult a b min max
        ∧ combineResult a b min max ≤ (max - min + 1) - 1)
      ∧ (∀ x y lo hi : Int, combineResult x y lo hi = combineResult y x lo hi)
      ∧ combineResult 4 3 0 5 = 1 := by
  refine ⟨?_, ?_, by decide⟩
  · have hn : 0 < max - min + 1 := by omega
    have h0 : 0 ≤ a + b := by omega
    have hnn : 0 ≤ combineResult a b min max :=
      Int.tmod_nonneg (max - min + 1) h0
    have hlt : combineResult a b min max < max - min + 1 :=
      Int.tmod_lt_of_pos (a + b) hn
    exact ⟨hnn, by omega⟩
  · intro x y lo hi
    rw [combineResult, combineResult, Int.add_comm]

/-- C5 witness at the concrete round min = 0, max = 5, computer 4, user 3. -/
theorem combineResult_spec_witness :
    (0 ≤ combineResult 4 3 0 5 ∧ combineResult 4 3 0 5 ≤ (5 - 0 + 1) - 1)
      ∧ combineResult 4 3 0 5 = 1 := by
  have h := combineResult_spec 0 5 4 3 (by decide) (by decide) (by decide)
    (by decide) (by decide)
  exact ⟨h.1, h.2.2⟩

theorem getUserInput_no_reveal (min max : Int) :
    ∀ (responses : List Response) (k v : Int),
      REvent.reveal k v ∉ (FairRandom.getUserInput min max responses).1
  | [], k, v => by simp [FairRandom.getUserInput]
  | Response.abortCmd :: rest, k, v => by simp [FairRandom.getUserInput]
  | Response.helpCmd :: rest, k, v => by
    simp [FairRandom.getUserInput]
    exact getUserInput_no_reveal min max rest k v
  | Response.num n :: rest, k, v => by
    rw [FairRandom.getUserInput]
    split
    · simp
    · simp
      exact getUserInput_no_reveal min max rest k v
  | Response.invalid :: rest, k, v => by
    simp [FairRandom.getUserInput]
    exact getUserInput_no_reveal min max rest k v

/-- C2: in every round, the key and the computer value reach the report sink
only after the counterpart value is fixed, and an aborted round discloses
neither.  Precisely: (1) no reveal event is ever emitted during the Collect
phase; (2) if the round is aborted during Collect, the whole output of the
round contains no reveal event; (3) the round output truncated just past the
Collect phase (the announce event plus all Collect events, which is where the
counterpart value becomes fixed) contains no reveal event; (4) a reveal event
can occur in the output only when Collect actually produced a counterpart
value. -/
theorem generate_reveal_order (hmacFn : Int → Int → Int) (key computerNum : Int)
    (min max : Int) (responses : List Response) :
    (∀ k v, REvent.reveal k v ∉ (FairRandom.getUserInput min max responses).1)
      ∧ ((FairRandom.getUserInput min max responses).2 = Outcome.aborted →
          ∀ k v, REvent.reveal k v
            ∉ (FairRandom.generate hmacFn key computerNum min max responses).1)
      ∧ (∀ k v, REvent.reveal k v
          ∉ ((FairRandom.generate hmacFn key computerNum min max responses).1.take
              (1 + (FairRandom.getUserInput min max responses).1.length)))
      ∧ (∀ k v, REvent.reveal k v
            ∈ (FairRandom.generate hmacFn key computerNum min max responses).1 →
          ∃ n, (FairRandom.getUserInput min max responses).2 = Outcome.value n) := by
  refine ⟨getUserInput_no_reveal min max responses, ?_, ?_, ?_⟩
  · intro habort k v
    rw [FairRandom.generate]
    cases hout : (FairRandom.getUserInput min max responses).2 with
    | value n => rw [habort] at hout; exact absurd hout (by simp)
    | aborted =>
      simp only []
      simp
      exact getUserInput_no_reveal min max responses k v
    | pending =>
      simp only []
      simp
      exact getUserInput_no_reveal min max responses k v
  · intro k v
    rw [FairRandom.generate]
    cases hout : (FairRandom.getUserInput min max responses).2 with
    | value n =>
      simp only []
      rw [List.cons_append, Nat.add_comm, List.take_succ_cons, List.take_left]
      simp only [List.mem_cons]
      rintro (h | h)
      · exact absurd h (by simp)
      · exact getUserInput_no_reveal min max responses k v h
    | aborted =>
      simp only []
      rw [List.take_of_length_le (by simp [Nat.add_comm])]
      simp only [List.mem_cons]
      rintro (h | h)
      · exact absurd h (by simp)
      · exact getUserInput_no_reveal min max responses k v h
    | pending =>
      simp only []
      rw [List.take_of_length_le (by simp [Nat.add_comm])]
      simp only [List.mem_cons]
      rintro (h | h)
      · exact absurd h (by simp)
      · exact getUserInput_no_reveal min max responses k v h
  · intro k v hmem
    cases hout : (FairRandom.getUserInput min max responses).2 with
    | value n => exact ⟨n, rfl⟩
    | aborted =>
      rw [FairRandom.generate] at hmem
      rw [hout] at hmem
      simp only [List.mem_cons] at hmem
      rcases hmem with h | h
      · exact absurd h (by simp)
      · exact absurd h (getUserInput_no_reveal min max responses k v)
    | pending =>
      rw [FairRandom.generate] at hmem
      rw [hout] at hmem
      simp only [List.mem_cons] at hmem
      rcases hmem with h | h
      · exact absurd h (by simp)
      · exact absurd h (getUserInput_no_reveal min max responses k v)

/-- C2 witness: a concrete aborted round (the counterpart sends the exit
command) emits no reveal event at all. -/
theorem generate_reveal_order_witness :
    REvent.reveal 7 1 ∉ (FairRandom.generate (fun _ _ => 0) 7 1 0 1 [Response.abortCmd]).1 :=
  (generate_reveal_order (fun _ _ => 0) 7 1 0 1 [Response.abortCmd]).2.1 rfl 7 1

/-- C9: with min <= max, the Collect loop only ever hands back an integer
inside [min, max]; an out-of-range number or a non-numeric response is
recovered locally, by printing the invalid-selection message and re-prompting
with the same contract (the outcome of the round is exactly the outcome on
the remaining responses), and no error is propagated (getUserInput is total:
its outcome is only ever a validated value, the abort signal, or pending). -/
theorem getUserInput_recovery (min max : Int) (hminmax : min ≤ max) :
    (∀ (responses : List Response) (n : Int),
        (FairRandom.getUserInput min max responses).2 = Outcome.value n →
          min ≤ n ∧ n ≤ max)
      ∧ (∀ (n : Int) (rest : List Response), ¬ (min ≤ n ∧ n ≤ max) →
          FairRandom.getUserInput min max (Response.num n :: rest)
            = (REvent.menu min max :: REvent.invalidMsg
                :: (FairRandom.getUserInput min max rest).1,
               (FairRandom.getUserInput min max rest).2))
      ∧ (∀ rest : List Response,
          FairRandom.getUserInput min max (Response.invalid :: rest)
            = (REvent.menu min max :: REvent.invalidMsg
                :: (FairRandom.getUserInput min max rest).1,
               (FairRandom.getUserInput min max rest).2)) := by
  refine ⟨?_, ?_, ?_⟩
  · intro responses
    induction responses with
    | nil => intro n h; exact absurd h (by simp [FairRandom.getUserInput])
    | cons r rest ih =>
      intro n h
      cases r with
      | abortCmd => exact absurd h (by simp [FairRandom.getUserInput])
      | helpCmd =>
        rw [FairRandom.getUserInput] at h
        exact ih n h
      | invalid =>
        rw [FairRandom.getUserInput] at h
        exact ih n h
      | num m =>
        rw [FairRandom.getUserInput] at h
        by_cases hm : min ≤ m ∧ m ≤ max
        · rw [if_pos hm] at h
          simp only [] at h
          cases h
          exact hm
        · rw [if_neg hm] at h
          exact ih n h
  · intro n rest hn
    rw [FairRandom.getUserInput, if_neg hn]
  · intro rest
    rw [FairRandom.getUserInput]

/-- C9 witness: with range [0, 5], a validated outcome is inside the range. -/
theorem getUserInput_recovery_witness : (0 : Int) ≤ 3 ∧ (3 : Int) ≤ 5 :=
  (getUserInput_recovery 0 5 (by decide)).1 [Response.num 3] 3 rfl
